import Mathlib

/-!
Shallow embedding of the meta-tree core of `bayesml/metatree/_metatree_x_discrete.py`
(class `LearnModel`): the node data structure, the posterior-update recursion,
meta-tree comparison and merging, the MAP-collapse recursion, ensemble
reweighting, 0-1-loss prediction, and the `update_posterior` / `pred_and_update`
entry points.

Real weights and evidences (Python floats) are modelled by `ℚ`.  The leaf
models (bernoulli / poisson / normal / exponential sub-models) are external
collaborators of this file's subject; they are modelled by the record
`SubFam`, whose fields are the operations the meta-tree code invokes on
`node.sub_model`: `pred s x y` is the predictive density/mass at `y` reported
after `calc_pred_dist(x)` (the value `_update_posterior_leaf` reads from
`make_prediction(loss='KL')`), `upd s x y` is `update_posterior(x,y)`, and
`mode s x` is `make_prediction(loss='0-1')`.
-/

namespace Metatree

/-- Interface of a leaf sub-model family, as consumed by the meta-tree code:
predictive density/mass at a point, posterior update, and 0-1-loss point
estimate (the mode of the predictive distribution). -/
structure SubFam (σ υ : Type) where
  pred : σ → List ℕ → υ → ℚ
  upd : σ → List ℕ → υ → σ
  mode : σ → List ℕ → υ

/-- The `_Node` class: one vertex of a candidate tree.  A well-formed node has
either all `c_num_children` children present (inner node, `leaf == False`,
`k` set) or none (leaf node, `k is None`); the two constructors model exactly
these two shapes.  `h_g` is the stopping weight, `sub` the owned sub-model
state. -/
inductive Node (σ : Type) : Type where
  | leaf (depth : ℕ) (h_g : ℚ) (sub : σ)
  | inner (depth : ℕ) (h_g : ℚ) (k : ℕ) (sub : σ) (children : List (Node σ))

instance {σ : Type} [Inhabited σ] : Inhabited (Node σ) := ⟨.leaf 0 0 default⟩

/-- The `depth` field of a node. -/
def nodeDepth {σ : Type} : Node σ → ℕ
  | .leaf d _ _ => d
  | .inner d _ _ _ _ => d

/-- `_update_posterior_leaf`: query the sub-model's predictive density/mass at
`y` (before updating), then update the sub-model with `(x, y)`; the returned
pair is (pre-update predictive value, updated sub-model state). -/
def update_posterior_leaf {σ υ : Type} (F : SubFam σ υ) (s : σ) (x : List ℕ) (y : υ) :
    ℚ × σ :=
  (F.pred s x y, F.upd s x y)

/-- `_update_posterior_recursion`: one observation absorbed along the path
selected by `x`.  At an inner node the source first recurses into
`node.children[x[node.k]]` (`tmp1`), then computes the node's own leaf
evidence, combines them into `tmp2`, and replaces `node.h_g` by
`node.h_g * tmp1 / tmp2`.  An out-of-range child access raises `IndexError`
in Python; that branch (unreachable for well-formed trees and valid `x`) is
modelled as returning the node unchanged with evidence `0`. -/
def update_posterior_recursion {σ υ : Type} (F : SubFam σ υ) (x : List ℕ) (y : υ) :
    Node σ → ℚ × Node σ
  | .leaf d g s =>
    ((update_posterior_leaf F s x y).1, .leaf d g (update_posterior_leaf F s x y).2)
  | .inner d g k s c =>
    if h : x.getD k 0 < c.length then
      let tmp1 := update_posterior_recursion F x y (c.get ⟨x.getD k 0, h⟩)
      let lr := update_posterior_leaf F s x y
      let tmp2 := (1 - g) * lr.1 + g * tmp1.1
      (tmp2, .inner d (g * tmp1.1 / tmp2) k lr.2 (c.set (x.getD k 0) tmp1.2))
    else (0, .inner d g k s c)
termination_by t => sizeOf t
decreasing_by
  simp_wf
  have h1 := List.sizeOf_lt_of_mem (List.get_mem _ _ h)
  simp only [List.get_eq_getElem, List.getD_eq_getElem?_getD] at h1
  omega

/-- Validity of one explanatory vector `x`: length `c_k`, every entry below
`c_num_children` (the data contract checked by `update_posterior`). -/
def validX (ck cnum : ℕ) (x : List ℕ) : Prop :=
  x.length = ck ∧ ∀ v ∈ x, v < cnum

instance (ck cnum : ℕ) (x : List ℕ) : Decidable (validX ck cnum x) := by
  unfold validX; infer_instance

/-- C1: one call of the posterior-update recursion.  At a leaf it returns the
sub-model's pre-update predictive value at `y` and updates that sub-model in
place; at an inner node with pre-update stopping weight `g` it recurses into
`children[x[k]]` obtaining `child_evidence`, computes the local evidence from
the node's own sub-model the same way, returns
`tmp2 = (1 - g) * local_evidence + g * child_evidence`, and the node's new
stopping weight is `g * child_evidence / tmp2`. -/
theorem update_posterior_recursion_spec {σ υ : Type} (F : SubFam σ υ)
    (x : List ℕ) (y : υ) :
    (∀ (d : ℕ) (g : ℚ) (s : σ),
      update_posterior_recursion F x y (Node.leaf d g s)
        = (F.pred s x y, Node.leaf d g (F.upd s x y)))
    ∧ (∀ (d : ℕ) (g : ℚ) (k : ℕ) (s : σ) (c : List (Node σ))
        (h : x.getD k 0 < c.length),
      update_posterior_recursion F x y (Node.inner d g k s c)
        = ((1 - g) * F.pred s x y
             + g * (update_posterior_recursion F x y (c.get ⟨x.getD k 0, h⟩)).1,
           Node.inner d
             (g * (update_posterior_recursion F x y (c.get ⟨x.getD k 0, h⟩)).1
               / ((1 - g) * F.pred s x y
                   + g * (update_posterior_recursion F x y (c.get ⟨x.getD k 0, h⟩)).1))
             k (F.upd s x y)
             (c.set (x.getD k 0)
               (update_posterior_recursion F x y (c.get ⟨x.getD k 0, h⟩)).2))) := by
  constructor
  · intro d g s
    simp [update_posterior_recursion, update_posterior_leaf]
  · intro d g k s c h
    rw [update_posterior_recursion]
    simp only [h, dif_pos, update_posterior_leaf]

/-- Concrete sub-model family used to witness the theorems: state is a natural
number, observations are natural numbers, the predictive mass at `y` is
`1 / (s + y + 2)`, the update adds `y + 1` to the state, and the mode is the
state itself. -/
def demoFam : SubFam ℕ ℕ where
  pred := fun s _ y => 1 / ((s : ℚ) + (y : ℚ) + 2)
  upd := fun s _ y => s + y + 1
  mode := fun s _ => s

theorem update_posterior_recursion_spec_witness :
    ((0 : ℕ) < [Node.leaf 1 (1/3) (0 : ℕ)].length)
    ∧ update_posterior_recursion demoFam [0, 1] 5 (Node.inner 0 (1/2) 0 0 [Node.leaf 1 (1/3) 0])
        = ((1 - 1/2) * demoFam.pred 0 [0, 1] 5
             + (1/2) * (update_posterior_recursion demoFam [0, 1] 5 (Node.leaf 1 (1/3) 0)).1,
           Node.inner 0
             ((1/2) * (update_posterior_recursion demoFam [0, 1] 5 (Node.leaf 1 (1/3) 0)).1
               / ((1 - 1/2) * demoFam.pred 0 [0, 1] 5
                   + (1/2) * (update_posterior_recursion demoFam [0, 1] 5 (Node.leaf 1 (1/3) 0)).1))
             0 (demoFam.upd 0 [0, 1] 5)
             ([Node.leaf 1 (1/3) 0].set 0
               (update_posterior_recursion demoFam [0, 1] 5 (Node.leaf 1 (1/3) 0)).2)) := by
  refine ⟨by decide, ?_⟩
  exact (update_posterior_recursion_spec demoFam [0, 1] 5).2 0 (1/2) 0 0
    [Node.leaf 1 (1/3) 0] (by decide)

mutual
/-- `_compare_metatree_recursion`: structural equality of two candidate trees.
Two leaves compare equal; otherwise the split features are compared (in the
source a leaf carries `k = None`, so the `elif node1.k == node2.k` test is
false whenever exactly one side is a leaf) and, when they agree, all
corresponding children are compared recursively.  Stopping weights and
sub-model states are ignored. -/
def compare_metatree_recursion {σ : Type} : Node σ → Node σ → Bool
  | .leaf _ _ _, .leaf _ _ _ => true
  | .inner _ _ k1 _ c1, .inner _ _ k2 _ c2 =>
    k1 == k2 && compare_metatree_children c1 c2
  | _, _ => false

/-- The `for i in range(self.c_num_children)` loop of
`_compare_metatree_recursion`, over the two (equal-length, for well-formed
trees) child lists. -/
def compare_metatree_children {σ : Type} : List (Node σ) → List (Node σ) → Bool
  | [], [] => true
  | a :: as, b :: bs =>
    compare_metatree_recursion a b && compare_metatree_children as bs
  | _, _ => false
end

/-- The inner `for j in range(i+1, num_metatrees)` loop of `_marge_metatrees`
for a fixed outer candidate `t` with mass `p`: find the first later candidate
structurally equal to `t`; if one exists, add `p` to its mass
(`metatree_prob_vec[j] += metatree_prob_vec[i]`) and report the updated
remainder (`some`); report `none` when no later candidate matches. -/
def addMassToFirstMatch {σ : Type} (t : Node σ) (p : ℚ) :
    List (Node σ × ℚ) → Option (List (Node σ × ℚ))
  | [] => none
  | (t2, p2) :: rest =>
    if compare_metatree_recursion t t2 then some ((t2, p2 + p) :: rest)
    else (addMassToFirstMatch t p rest).map (fun r => (t2, p2) :: r)

theorem addMassToFirstMatch_length {σ : Type} (t : Node σ) (p : ℚ) :
    ∀ l l', addMassToFirstMatch t p l = some l' → l'.length = l.length := by
  intro l
  induction l with
  | nil => intro l' h; simp [addMassToFirstMatch] at h
  | cons a rest ih =>
    intro l' h
    obtain ⟨t2, p2⟩ := a
    rw [addMassToFirstMatch] at h
    by_cases hc : compare_metatree_recursion t t2
    · simp only [hc, if_pos] at h
      cases h
      simp
    · simp only [hc, if_neg, Bool.false_eq_true, not_false_iff, Option.map_eq_some'] at h
      obtain ⟨r, hr, rfl⟩ := h
      simp [ih r hr]

theorem addMassToFirstMatch_fst {σ : Type} (t : Node σ) (p : ℚ) :
    ∀ l l', addMassToFirstMatch t p l = some l' →
      l'.map Prod.fst = l.map Prod.fst := by
  intro l
  induction l with
  | nil => intro l' h; simp [addMassToFirstMatch] at h
  | cons a rest ih =>
    intro l' h
    obtain ⟨t2, p2⟩ := a
    rw [addMassToFirstMatch] at h
    by_cases hc : compare_metatree_recursion t t2
    · simp only [hc, if_pos] at h
      cases h
      simp
    · simp only [hc, if_neg, Bool.false_eq_true, not_false_iff, Option.map_eq_some'] at h
      obtain ⟨r, hr, rfl⟩ := h
      simp [ih r hr]

theorem addMassToFirstMatch_sum {σ : Type} (t : Node σ) (p : ℚ) :
    ∀ l l', addMassToFirstMatch t p l = some l' →
      (l'.map Prod.snd).sum = p + (l.map Prod.snd).sum := by
  intro l
  induction l with
  | nil => intro l' h; simp [addMassToFirstMatch] at h
  | cons a rest ih =>
    intro l' h
    obtain ⟨t2, p2⟩ := a
    rw [addMassToFirstMatch] at h
    by_cases hc : compare_metatree_recursion t t2
    · simp only [hc, if_pos] at h
      cases h
      simp
      ring
    · simp only [hc, if_neg, Bool.false_eq_true, not_false_iff, Option.map_eq_some'] at h
      obtain ⟨r, hr, rfl⟩ := h
      simp [ih r hr]
      ring

theorem addMassToFirstMatch_none_iff {σ : Type} (t : Node σ) (p : ℚ) :
    ∀ l, addMassToFirstMatch t p l = none ↔
      ∀ e ∈ l, compare_metatree_recursion t e.1 = false := by
  intro l
  induction l with
  | nil => simp [addMassToFirstMatch]
  | cons a rest ih =>
    obtain ⟨t2, p2⟩ := a
    rw [addMassToFirstMatch]
    by_cases hc : compare_metatree_recursion t t2
    · simp [hc]
    · simp only [hc, if_neg, Bool.false_eq_true, not_false_iff, Option.map_eq_none']
      simp only [Bool.not_eq_true] at hc
      simp [ih, hc]

/-- `_marge_metatrees`, over a single list of (tree, mass) pairs standing for
the parallel `metatree_list` / `metatree_prob_vec`.  For each candidate in
order, the first later structurally-equal candidate (if any) receives the
candidate's probability mass and the candidate itself is dropped
(`metatree_list[i] = None`, `metatree_prob_vec[i] = -1`, filtered out at the
end); otherwise the candidate is kept. -/
def marge_metatrees {σ : Type} : List (Node σ × ℚ) → List (Node σ × ℚ)
  | [] => []
  | (t, p) :: rest =>
    match h : addMassToFirstMatch t p rest with
    | some rest' => marge_metatrees rest'
    | none => (t, p) :: marge_metatrees rest
termination_by l => l.length
decreasing_by
  all_goals simp only [List.length_cons]
  all_goals first
    | omega
    | (have hlen2 := addMassToFirstMatch_length _ _ _ _ h
       omega)

theorem marge_cons_some {σ : Type} {t : Node σ} {p : ℚ}
    {rest rest' : List (Node σ × ℚ)} (h : addMassToFirstMatch t p rest = some rest') :
    marge_metatrees ((t, p) :: rest) = marge_metatrees rest' := by
  rw [marge_metatrees]
  split
  · next r heq => rw [h] at heq; cases heq; rfl
  · next heq => rw [h] at heq; cases heq

theorem marge_cons_none {σ : Type} {t : Node σ} {p : ℚ}
    {rest : List (Node σ × ℚ)} (h : addMassToFirstMatch t p rest = none) :
    marge_metatrees ((t, p) :: rest) = (t, p) :: marge_metatrees rest := by
  rw [marge_metatrees]
  split
  · next r heq => rw [h] at heq; cases heq
  · next heq => rfl

/-- The trees surviving a merge form a subsequence of the input trees. -/
theorem marge_fst_sublist {σ : Type} (l : List (Node σ × ℚ)) :
    List.Sublist ((marge_metatrees l).map Prod.fst) (l.map Prod.fst) := by
  match l with
  | [] => simp [marge_metatrees]
  | (t, p) :: rest =>
    cases h : addMassToFirstMatch t p rest with
    | some rest' =>
      rw [marge_cons_some h]
      have h1 := marge_fst_sublist rest'
      rw [addMassToFirstMatch_fst t p rest rest' h] at h1
      simp only [List.map_cons]
      exact h1.trans (List.sublist_cons_self _ _)
    | none =>
      rw [marge_cons_none h]
      simp only [List.map_cons]
      exact (marge_fst_sublist rest).cons₂ _
termination_by l.length
decreasing_by
  all_goals simp only [List.length_cons]
  all_goals first
    | omega
    | (have hlen2 := addMassToFirstMatch_length _ _ _ _ h
       omega)

/-- No tree surviving a merge is structurally equal to a later survivor. -/
theorem marge_pairwise {σ : Type} (l : List (Node σ × ℚ)) :
    (marge_metatrees l).Pairwise
      (fun a b => compare_metatree_recursion a.1 b.1 = false) := by
  match l with
  | [] => simp [marge_metatrees]
  | (t, p) :: rest =>
    cases h : addMassToFirstMatch t p rest with
    | some rest' =>
      rw [marge_cons_some h]
      exact marge_pairwise rest'
    | none =>
      rw [marge_cons_none h]
      refine List.Pairwise.cons ?_ (marge_pairwise rest)
      intro b hb
      have hbf : b.1 ∈ (marge_metatrees rest).map Prod.fst := List.mem_map_of_mem _ hb
      have hbf2 : b.1 ∈ rest.map Prod.fst := (marge_fst_sublist rest).subset hbf
      obtain ⟨e, he, hef⟩ := List.mem_map.1 hbf2
      rw [← hef]
      exact (addMassToFirstMatch_none_iff t p rest).1 h e he
termination_by l.length
decreasing_by
  all_goals simp only [List.length_cons]
  all_goals first
    | omega
    | (have hlen2 := addMassToFirstMatch_length _ _ _ _ h
       omega)

theorem marge_of_pairwise {σ : Type} (l : List (Node σ × ℚ))
    (hl : l.Pairwise (fun a b => compare_metatree_recursion a.1 b.1 = false)) :
    marge_metatrees l = l := by
  induction l with
  | nil => simp [marge_metatrees]
  | cons a rest ih =>
    obtain ⟨t, p⟩ := a
    rw [List.pairwise_cons] at hl
    have h : addMassToFirstMatch t p rest = none :=
      (addMassToFirstMatch_none_iff t p rest).2 (fun e he => hl.1 e he)
    rw [marge_cons_none h, ih hl.2]

/-- C6: merge is idempotent — merging an already-merged candidate list returns
the same list of trees and the same probability vector. -/
theorem marge_metatrees_idempotent {σ : Type} (l : List (Node σ × ℚ)) :
    marge_metatrees (marge_metatrees l) = marge_metatrees l :=
  marge_of_pairwise _ (marge_pairwise l)

/-- Merging preserves the total probability mass. -/
theorem marge_snd_sum {σ : Type} (l : List (Node σ × ℚ)) :
    ((marge_metatrees l).map Prod.snd).sum = (l.map Prod.snd).sum := by
  match l with
  | [] => simp [marge_metatrees]
  | (t, p) :: rest =>
    cases h : addMassToFirstMatch t p rest with
    | some rest' =>
      rw [marge_cons_some h]
      rw [marge_snd_sum rest', addMassToFirstMatch_sum t p rest rest' h]
      simp
    | none =>
      rw [marge_cons_none h]
      simp [marge_snd_sum rest]
termination_by l.length
decreasing_by
  all_goals simp only [List.length_cons]
  all_goals first
    | omega
    | (have hlen2 := addMassToFirstMatch_length _ _ _ _ h
       omega)

theorem addMassToFirstMatch_first {σ : Type} [Inhabited σ] (t : Node σ) (p : ℚ) :
    ∀ l l', addMassToFirstMatch t p l = some l' →
      ∃ i, i < l.length
        ∧ compare_metatree_recursion t (l.getD i default).1 = true
        ∧ (∀ j, j < i → compare_metatree_recursion t (l.getD j default).1 = false)
        ∧ l' = l.set i ((l.getD i default).1, (l.getD i default).2 + p) := by
  intro l
  induction l with
  | nil => intro l' h; simp [addMassToFirstMatch] at h
  | cons a rest ih =>
    intro l' h
    obtain ⟨t2, p2⟩ := a
    rw [addMassToFirstMatch] at h
    by_cases hc : compare_metatree_recursion t t2
    · simp only [hc, if_pos] at h
      cases h
      exact ⟨0, by simp, by simpa using hc, by omega, by simp⟩
    · simp only [hc, if_neg, Bool.false_eq_true, not_false_iff, Option.map_eq_some'] at h
      obtain ⟨r, hr, rfl⟩ := h
      obtain ⟨i, hi, hcomp, hfirst, hset⟩ := ih r hr
      refine ⟨i + 1, by simpa using hi, by simpa using hcomp, ?_, by simp [hset]⟩
      intro j hj
      cases j with
      | zero => simpa using Bool.not_eq_true _ ▸ hc
      | succ j' => simpa using hfirst j' (by omega)

/-- C2 (amended): when the merge pass finds a later candidate structurally
equal to an earlier candidate, the EARLIER candidate's probability mass is
added to the first such LATER candidate's entry and the earlier candidate is
removed from the list; the later candidate is the retained representative
(the source drops `metatree_list[i]` and keeps `metatree_list[j]`, `i < j`). -/
theorem marge_metatrees_retains_later {σ : Type} [Inhabited σ]
    (t : Node σ) (p : ℚ) (rest rest' : List (Node σ × ℚ))
    (h : addMassToFirstMatch t p rest = some rest') :
    marge_metatrees ((t, p) :: rest) = marge_metatrees rest'
    ∧ rest'.map Prod.fst = rest.map Prod.fst
    ∧ ∃ i, i < rest.length
        ∧ compare_metatree_recursion t (rest.getD i default).1 = true
        ∧ (∀ j, j < i → compare_metatree_recursion t (rest.getD j default).1 = false)
        ∧ rest' = rest.set i ((rest.getD i default).1, (rest.getD i default).2 + p) :=
  ⟨marge_cons_some h, addMassToFirstMatch_fst t p rest rest' h,
    addMassToFirstMatch_first t p rest rest' h⟩

theorem marge_metatrees_retains_later_witness :
    addMassToFirstMatch (Node.leaf 0 (1/5) (0 : ℕ)) (3/10)
        [(Node.leaf 0 (9/10) 0, 7/10)] = some [(Node.leaf 0 (9/10) 0, 1)]
    ∧ (marge_metatrees [((Node.leaf 0 (1/5) (0 : ℕ)), 3/10), (Node.leaf 0 (9/10) 0, 7/10)]
          = marge_metatrees [(Node.leaf 0 (9/10) 0, 1)]
        ∧ ([(Node.leaf 0 (9/10) (0 : ℕ), (1 : ℚ))]).map Prod.fst
            = ([(Node.leaf 0 (9/10) (0 : ℕ), (7/10 : ℚ))]).map Prod.fst
        ∧ ∃ i, i < ([(Node.leaf 0 (9/10) (0 : ℕ), (7/10 : ℚ))]).length
            ∧ compare_metatree_recursion (Node.leaf 0 (1/5) 0)
                (([(Node.leaf 0 (9/10) (0 : ℕ), (7/10 : ℚ))]).getD i default).1 = true
            ∧ (∀ j, j < i → compare_metatree_recursion (Node.leaf 0 (1/5) 0)
                (([(Node.leaf 0 (9/10) (0 : ℕ), (7/10 : ℚ))]).getD j default).1 = false)
            ∧ [(Node.leaf 0 (9/10) (0 : ℕ), (1 : ℚ))]
                = ([(Node.leaf 0 (9/10) (0 : ℕ), (7/10 : ℚ))]).set i
                    ((([(Node.leaf 0 (9/10) (0 : ℕ), (7/10 : ℚ))]).getD i default).1,
                      (([(Node.leaf 0 (9/10) (0 : ℕ), (7/10 : ℚ))]).getD i default).2 + 3/10)) := by
  have h : addMassToFirstMatch (Node.leaf 0 (1/5) (0 : ℕ)) (3/10)
      [(Node.leaf 0 (9/10) 0, 7/10)] = some [(Node.leaf 0 (9/10) 0, 1)] := by
    rw [addMassToFirstMatch]
    rw [compare_metatree_recursion]
    norm_num
  exact ⟨h, marge_metatrees_retains_later _ _ _ _ h⟩

/-- C2 (counterexample): on two structurally equal single-leaf candidates the
merge keeps the LATER one (stopping weight 9/10) with the combined mass, not
the earlier one (stopping weight 1/5) as the claim states. -/
theorem marge_metatrees_drops_earlier_cex :
    marge_metatrees [((Node.leaf 0 (1/5) (0 : ℕ)), 3/10), (Node.leaf 0 (9/10) 0, 7/10)]
      = [(Node.leaf 0 (9/10) 0, 1)]
    ∧ (Node.leaf 0 (9/10) (0 : ℕ)) ≠ (Node.leaf 0 (1/5) 0)
    ∧ marge_metatrees [((Node.leaf 0 (1/5) (0 : ℕ)), 3/10), (Node.leaf 0 (9/10) 0, 7/10)]
      ≠ [(Node.leaf 0 (1/5) 0, 1)] := by
  have hmerge : marge_metatrees
      [((Node.leaf 0 (1/5) (0 : ℕ)), 3/10), (Node.leaf 0 (9/10) 0, 7/10)]
        = [(Node.leaf 0 (9/10) 0, 1)] := by
    have h : addMassToFirstMatch (Node.leaf 0 (1/5) (0 : ℕ)) (3/10)
        [(Node.leaf 0 (9/10) 0, 7/10)] = some [(Node.leaf 0 (9/10) 0, 1)] := by
      rw [addMassToFirstMatch]
      rw [compare_metatree_recursion]
      norm_num
    rw [marge_cons_some h]
    have h2 : addMassToFirstMatch (Node.leaf 0 (9/10) (0 : ℕ)) 1 ([] : List (Node ℕ × ℚ)) = none := by
      rw [addMassToFirstMatch]
    rw [marge_cons_none h2]
    rw [marge_metatrees]
  have hdiff : (Node.leaf 0 (9/10) (0 : ℕ)) ≠ (Node.leaf 0 (1/5) 0) := by
    intro hcontra
    rw [Node.leaf.injEq] at hcontra
    norm_num at hcontra
  refine ⟨hmerge, hdiff, ?_⟩
  rw [hmerge]
  intro hcontra
  rw [List.cons.injEq, Prod.mk.injEq] at hcontra
  exact hdiff hcontra.1.1

/-- The root-to-leaf path (as the list of child indices taken) that the
observation `x` selects in a tree: at an inner node the recursion follows
`children[x[k]]`.  (For a malformed tree whose child index is out of range the
path stops at that index.) -/
def selPath {σ : Type} (x : List ℕ) : Node σ → List ℕ
  | .leaf _ _ _ => []
  | .inner _ _ k _ c =>
    if h : x.getD k 0 < c.length then
      x.getD k 0 :: selPath x (c.get ⟨x.getD k 0, h⟩)
    else [x.getD k 0]
termination_by t => sizeOf t
decreasing_by
  simp_wf
  have h1 := List.sizeOf_lt_of_mem (List.get_mem _ _ h)
  simp only [List.get_eq_getElem, List.getD_eq_getElem?_getD] at h1
  omega

/-- Address a node of a tree by the list of child indices leading to it from
the root (`[]` is the root itself). -/
def getNode {σ : Type} : Node σ → List ℕ → Option (Node σ)
  | t, [] => some t
  | .leaf _ _ _, _ :: _ => none
  | .inner _ _ _ _ c, j :: rest => (c.get? j).bind (fun ch => getNode ch rest)

mutual
/-- Well-formedness of a node with respect to the model constants: an inner
node sits strictly above both the depth bound `c_d_max` and the feature
budget `c_k`, splits on a feature below `c_k`, and has exactly
`c_num_children` children, each one level deeper and well-formed.  (These are
the invariants the tree builders `_copy_tree_from_sklearn_tree` and
`_gen_params_recursion` maintain.) -/
def wfNode (cnum dmax ck : ℕ) {σ : Type} : Node σ → Bool
  | .leaf _ _ _ => true
  | .inner d _ k _ c =>
    decide (d < dmax) && decide (d < ck) && decide (k < ck)
      && (c.length == cnum) && wfChildren cnum dmax ck (d + 1) c

/-- All nodes of a child list have the stated depth and are well-formed. -/
def wfChildren (cnum dmax ck d1 : ℕ) {σ : Type} : List (Node σ) → Bool
  | [] => true
  | ch :: rest =>
    (nodeDepth ch == d1) && wfNode cnum dmax ck ch && wfChildren cnum dmax ck d1 rest
end

theorem wfChildren_forall {cnum dmax ck d1 : ℕ} {σ : Type} :
    ∀ l : List (Node σ), wfChildren cnum dmax ck d1 l = true →
      ∀ ch ∈ l, wfNode cnum dmax ck ch = true := by
  intro l
  induction l with
  | nil => intro _ ch hch; simp at hch
  | cons a rest ih =>
    intro hl ch hch
    rw [wfChildren] at hl
    simp only [Bool.and_eq_true] at hl
    rcases List.mem_cons.1 hch with h1 | h2
    · rw [h1]; exact hl.1.2
    · exact ih hl.2 ch h2

/-- C3: one posterior-update call touches only the root-to-leaf path selected
by `x`: the entire subtree at every address that is not on that path — in
particular its stopping weight and its sub-model state — is unchanged. -/
theorem update_posterior_off_path {σ υ : Type} (F : SubFam σ υ)
    (ck cnum dmax : ℕ) (x : List ℕ) (y : υ) (t : Node σ) (pos : List ℕ)
    (hwf : wfNode cnum dmax ck t = true) (hx : validX ck cnum x)
    (hpos : ¬ List.IsPrefix pos (selPath x t)) :
    getNode (update_posterior_recursion F x y t).2 pos = getNode t pos := by
  match t, pos with
  | .leaf d g s, [] => exact absurd (List.nil_prefix) hpos
  | .leaf d g s, j :: rest =>
    rw [update_posterior_recursion]
    rfl
  | .inner d g k s c, [] => exact absurd (List.nil_prefix) hpos
  | .inner d g k s c, j :: rest =>
    rw [wfNode] at hwf
    simp only [Bool.and_eq_true, decide_eq_true_eq, beq_iff_eq] at hwf
    obtain ⟨⟨⟨⟨_, _⟩, hk⟩, hlen⟩, hch⟩ := hwf
    have hkx : k < x.length := by rw [hx.1]; exact hk
    have hi0 : x.getD k 0 < cnum := by
      rw [List.getD_eq_getElem _ _ hkx]
      exact hx.2 _ (List.getElem_mem hkx)
    have h : x.getD k 0 < c.length := by rw [hlen]; exact hi0
    rw [update_posterior_recursion]
    simp only [h, dif_pos]
    rw [selPath] at hpos
    simp only [h, dif_pos] at hpos
    by_cases hji : j = x.getD k 0
    · have hrest : ¬ List.IsPrefix rest (selPath x (c.get ⟨x.getD k 0, h⟩)) := by
        intro hcontra
        exact hpos (List.cons_prefix_cons.2 ⟨hji, hcontra⟩)
      rw [getNode, getNode, hji]
      have hset : (c.set (x.getD k 0)
            (update_posterior_recursion F x y (c.get ⟨x.getD k 0, h⟩)).2).get? (x.getD k 0)
          = some (update_posterior_recursion F x y (c.get ⟨x.getD k 0, h⟩)).2 :=
        List.get?_set_eq_of_lt _ h
      rw [hset, List.get?_eq_get h]
      simp only [Option.some_bind]
      exact update_posterior_off_path F ck cnum dmax x y (c.get ⟨x.getD k 0, h⟩) rest
        (wfChildren_forall c hch _ (List.get_mem _ _ h)) hx hrest
    · rw [getNode, getNode]
      rw [List.get?_set_ne _ _ (fun hcontra => hji hcontra.symm)]
termination_by sizeOf t
decreasing_by
  simp_wf
  have h1 := List.sizeOf_lt_of_mem (List.get_mem _ _ h)
  simp only [List.get_eq_getElem, List.getD_eq_getElem?_getD] at h1
  omega

theorem update_posterior_off_path_witness :
    wfNode 2 3 2 (Node.inner 0 (1/2) 0 (0 : ℕ) [Node.leaf 1 (1/3) 5, Node.leaf 1 (1/4) 7]) = true
    ∧ validX 2 2 [0, 1]
    ∧ ¬ List.IsPrefix [1]
        (selPath [0, 1] (Node.inner 0 (1/2) 0 (0 : ℕ) [Node.leaf 1 (1/3) 5, Node.leaf 1 (1/4) 7]))
    ∧ getNode (update_posterior_recursion demoFam [0, 1] 9
          (Node.inner 0 (1/2) 0 0 [Node.leaf 1 (1/3) 5, Node.leaf 1 (1/4) 7])).2 [1]
        = getNode (Node.inner 0 (1/2) 0 0 [Node.leaf 1 (1/3) 5, Node.leaf 1 (1/4) 7]) [1] := by
  have hwf : wfNode 2 3 2
      (Node.inner 0 (1/2) 0 (0 : ℕ) [Node.leaf 1 (1/3) 5, Node.leaf 1 (1/4) 7]) = true := by
    rw [wfNode, wfChildren, wfChildren, wfChildren]
    rw [wfNode, wfNode]
    simp [nodeDepth]
  have hsel : selPath [0, 1]
      (Node.inner 0 (1/2) 0 (0 : ℕ) [Node.leaf 1 (1/3) 5, Node.leaf 1 (1/4) 7]) = [0] := by
    rw [selPath]
    simp only [List.getD]
    norm_num
    rw [selPath]
  have hpre : ¬ List.IsPrefix [1]
      (selPath [0, 1] (Node.inner 0 (1/2) 0 (0 : ℕ) [Node.leaf 1 (1/3) 5, Node.leaf 1 (1/4) 7])) := by
    rw [hsel]
    decide
  exact ⟨hwf, by decide, hpre,
    update_posterior_off_path demoFam 2 2 3 [0, 1] 9 _ [1] hwf (by decide) hpre⟩

mutual
/-- `_map_recursion`: the MAP-collapse decision at one node, returning the
probability mass of the best stop/split assignment for the subtree and
whether this node is declared a MAP leaf (`node.map_leaf = True`).  At a
forced leaf (depth equal to `c_d_max` or to `c_k`) the mass is `1.0`.  At an
unforced leaf the comparison is against the closed-form geometric threshold
`hn_g ** ((c_num_children ** (c_d_max - depth) - 1)/(c_num_children - 1))`;
the exponent is the integer geometric sum `1 + c + ... + c^(dmax-d-1)`, so
the Python float division is exact and is modelled by natural division.  In
the losing leaf branch the source additionally expands the node in place via
`_map_recursion_add_nodes` (leaving this node's `map_leaf` false); only the
flag and the returned mass are modelled.  At an inner node the comparison is
against `node.h_g` times the product of the children's recursive masses. -/
def map_recursion (hn_g : ℚ) (cnum dmax ck : ℕ) {σ : Type} : Node σ → ℚ × Bool
  | .leaf d _ _ =>
    if d = dmax ∨ d = ck then (1, true)
    else if 1 - hn_g > hn_g ^ ((cnum ^ (dmax - d) - 1) / (cnum - 1)) then (1 - hn_g, true)
    else (hn_g ^ ((cnum ^ (dmax - d) - 1) / (cnum - 1)), false)
  | .inner _ g _ _ c =>
    if 1 - g > g * map_recursion_children hn_g cnum dmax ck c then (1 - g, true)
    else (g * map_recursion_children hn_g cnum dmax ck c, false)

/-- The `tmp_vec[i] = self._map_recursion(node.children[i])` loop followed by
`tmp_vec.prod()`. -/
def map_recursion_children (hn_g : ℚ) (cnum dmax ck : ℕ) {σ : Type} : List (Node σ) → ℚ
  | [] => 1
  | ch :: rest =>
    (map_recursion hn_g cnum dmax ck ch).1 * map_recursion_children hn_g cnum dmax ck rest
end

theorem map_recursion_children_eq_prod (hn_g : ℚ) (cnum dmax ck : ℕ) {σ : Type}
    (c : List (Node σ)) :
    map_recursion_children hn_g cnum dmax ck c
      = (c.map (fun ch => (map_recursion hn_g cnum dmax ck ch).1)).prod := by
  induction c with
  | nil => rw [map_recursion_children]; simp
  | cons ch rest ih => rw [map_recursion_children]; simp [ih]

/-- C5: the MAP-collapse recursion on a well-formed tree.  A node at depth
`c_d_max` or `c_k` is declared a MAP leaf with mass exactly `1`; any other
leaf is declared a MAP leaf iff `1 - hn_g` strictly exceeds the geometric
threshold `hn_g ^ ((cnum ^ (dmax - d) - 1)/(cnum - 1))`, and any inner node
is declared a MAP leaf iff `1 - h_g` strictly exceeds `h_g` times the product
of its children's recursive masses; in both cases the returned mass is the
larger of the two compared quantities. -/
theorem map_recursion_spec (hn_g : ℚ) (cnum dmax ck : ℕ) {σ : Type} (t : Node σ)
    (hwf : wfNode cnum dmax ck t = true) :
    (nodeDepth t = dmax ∨ nodeDepth t = ck →
      map_recursion hn_g cnum dmax ck t = (1, true))
    ∧ (∀ (d : ℕ) (g : ℚ) (s : σ), t = Node.leaf d g s → d ≠ dmax → d ≠ ck →
        map_recursion hn_g cnum dmax ck t
          = (max (1 - hn_g) (hn_g ^ ((cnum ^ (dmax - d) - 1) / (cnum - 1))),
             decide (1 - hn_g > hn_g ^ ((cnum ^ (dmax - d) - 1) / (cnum - 1)))))
    ∧ (∀ (d : ℕ) (g : ℚ) (k : ℕ) (s : σ) (c : List (Node σ)), t = Node.inner d g k s c →
        map_recursion hn_g cnum dmax ck t
          = (max (1 - g) (g * (c.map (fun ch => (map_recursion hn_g cnum dmax ck ch).1)).prod),
             decide (1 - g > g * (c.map (fun ch => (map_recursion hn_g cnum dmax ck ch).1)).prod))) := by
  cases t with
  | leaf d g s =>
    refine ⟨?_, ?_, ?_⟩
    · intro hd
      rw [map_recursion]
      rw [if_pos (by simpa [nodeDepth] using hd)]
    · intro d' g' s' heq hd1 hd2
      cases heq
      rw [map_recursion]
      rw [if_neg (by tauto)]
      by_cases hgt : 1 - hn_g > hn_g ^ ((cnum ^ (dmax - d) - 1) / (cnum - 1))
      · rw [if_pos hgt, max_eq_left hgt.le, decide_eq_true hgt]
      · rw [if_neg hgt, max_eq_right (not_lt.1 hgt), decide_eq_false hgt]
    · intro d' g' k' s' c' heq
      exact absurd heq (by simp)
  | inner d g k s c =>
    rw [wfNode] at hwf
    simp only [Bool.and_eq_true, decide_eq_true_eq, beq_iff_eq] at hwf
    obtain ⟨⟨⟨⟨hdm, hdk⟩, _⟩, _⟩, _⟩ := hwf
    refine ⟨?_, ?_, ?_⟩
    · intro hd
      simp only [nodeDepth] at hd
      rcases hd with hd | hd
      · exact absurd hd (Nat.ne_of_lt hdm)
      · exact absurd hd (Nat.ne_of_lt hdk)
    · intro d' g' s' heq _ _
      exact absurd heq (by simp)
    · intro d' g' k' s' c' heq
      cases heq
      rw [map_recursion, map_recursion_children_eq_prod]
      by_cases hgt : 1 - g > g * (c.map (fun ch => (map_recursion hn_g cnum dmax ck ch).1)).prod
      · rw [if_pos hgt, max_eq_left hgt.le, decide_eq_true hgt]
      · rw [if_neg hgt, max_eq_right (not_lt.1 hgt), decide_eq_false hgt]

theorem map_recursion_spec_witness :
    wfNode 2 3 5 (Node.leaf 1 (0 : ℚ) (0 : ℕ)) = true
    ∧ map_recursion (1/4) 2 3 5 (Node.leaf 1 (0 : ℚ) (0 : ℕ)) = (3/4, true) := by
  have hwf : wfNode 2 3 5 (Node.leaf 1 (0 : ℚ) (0 : ℕ)) = true := by rw [wfNode]
  refine ⟨hwf, ?_⟩
  have h2 := (map_recursion_spec (1/4) 2 3 5 (Node.leaf 1 (0 : ℚ) (0 : ℕ)) hwf).2.1
    1 0 0 rfl (by decide) (by decide)
  rw [h2]
  norm_num

/-- The inner loop of `_given_MT` / `_MTRF` for one candidate tree: absorb the
observations in order via `_update_posterior_recursion`, collecting the
per-observation evidences (whose logs are accumulated by the caller) and the
final tree. -/
def absorb_batch {σ υ : Type} (F : SubFam σ υ) :
    Node σ → List (List ℕ × υ) → List ℚ × Node σ
  | t, [] => ([], t)
  | t, (x, y) :: rest =>
    let r := update_posterior_recursion F x y t
    let rs := absorb_batch F r.2 rest
    (r.1 :: rs.1, rs.2)

/-- The log-domain reweighting block shared by `_MTRF` and `_given_MT`:
`log_metatree_posteriors = log(prob_vec)`, incremented by `log(evidence)` for
each observation in order, then normalised by subtracting the maximum,
exponentiating and dividing by the sum.  The float functions `np.log` /
`np.exp` are abstracted as `logF` / `expF`. -/
def reweight (expF logF : ℚ → ℚ) (w : List ℚ) (evs : List (List ℚ)) : List ℚ :=
  let lp := List.zipWith (fun wi es => logF wi + (es.map logF).sum) w evs
  let m := lp.foldl max (lp.headD 0)
  let u := lp.map (fun v => expF (v - m))
  u.map (fun v => v / u.sum)

/-- `_given_MT`'s core: reweight a fixed candidate list in place after
absorbing a batch of observations into every candidate. -/
def given_MT {σ υ : Type} (F : SubFam σ υ) (expF logF : ℚ → ℚ)
    (trees : List (Node σ)) (w : List ℚ) (obs : List (List ℕ × υ)) :
    List (Node σ) × List ℚ :=
  let rs := trees.map (fun t => absorb_batch F t obs)
  (rs.map Prod.snd, reweight expF logF w (rs.map Prod.fst))

theorem sum_map_div (u : List ℚ) (s : ℚ) :
    (u.map (fun v => v / s)).sum = u.sum / s := by
  induction u with
  | nil => simp
  | cons a rest ih => simp [ih, add_div]

theorem reweight_sum_one (expF logF : ℚ → ℚ) (w : List ℚ) (evs : List (List ℚ))
    (hw : w ≠ []) (hlen : evs.length = w.length) (hexp : ∀ q, 0 < expF q) :
    (reweight expF logF w evs).sum = 1 := by
  rw [reweight]
  set lp := List.zipWith (fun wi es => logF wi + (es.map logF).sum) w evs with hlp
  set m := lp.foldl max (lp.headD 0) with hm
  set u := lp.map (fun v => expF (v - m)) with hu
  have hlplen : lp.length = w.length := by
    rw [hlp, List.length_zipWith, hlen, min_self]
  have hune : u ≠ [] := by
    rw [hu]
    simp only [ne_eq, List.map_eq_nil_iff]
    intro hcontra
    rw [hcontra] at hlplen
    simp only [List.length_nil] at hlplen
    exact hw (List.length_eq_zero.1 hlplen.symm)
  have hupos : ∀ a ∈ u, 0 < a := by
    intro a ha
    rw [hu] at ha
    obtain ⟨v, _, rfl⟩ := List.mem_map.1 ha
    exact hexp _
  have hsum : 0 < u.sum := List.sum_pos u hupos hune
  rw [sum_map_div, div_self (ne_of_gt hsum)]

/-- C4: after the batch reweighting of `_given_MT` (log-scores initialised to
the log prior weights, incremented by each observation's log evidence in
order, then normalised by the log-sum-exp trick) the ensemble probability
vector sums to 1 — for any positive abstract `exp`; and merging a candidate
list whose masses sum to 1 again yields masses summing to 1. -/
theorem given_MT_weights_sum_one {σ υ : Type} (F : SubFam σ υ)
    (expF logF : ℚ → ℚ) (trees : List (Node σ)) (w : List ℚ)
    (obs : List (List ℕ × υ)) (hne : trees ≠ []) (hlen : w.length = trees.length)
    (hsum : w.sum = 1) (hexp : ∀ q, 0 < expF q) :
    ((given_MT F expF logF trees w obs).2).sum = 1
    ∧ ((marge_metatrees (trees.zip w)).map Prod.snd).sum = 1 := by
  constructor
  · rw [given_MT]
    refine reweight_sum_one expF logF w _ ?_ ?_ hexp
    · intro hcontra
      rw [hcontra] at hlen
      simp only [List.length_nil] at hlen
      exact hne (List.length_eq_zero.1 hlen.symm)
    · simp [hlen]
  · rw [marge_snd_sum]
    rw [List.map_snd_zip _ _ (le_of_eq hlen)]
    exact hsum

theorem given_MT_weights_sum_one_witness :
    ([Node.leaf 0 (1/2) (0 : ℕ)] ≠ [])
    ∧ ((given_MT demoFam (fun _ => 1) (fun _ => 0)
          [Node.leaf 0 (1/2) (0 : ℕ)] [1] [([0], 4)]).2).sum = 1
    ∧ ((marge_metatrees ([Node.leaf 0 (1/2) (0 : ℕ)].zip [(1 : ℚ)])).map Prod.snd).sum = 1 := by
  refine ⟨by simp, ?_, ?_⟩
  · exact (given_MT_weights_sum_one demoFam (fun _ => 1) (fun _ => 0)
      [Node.leaf 0 (1/2) (0 : ℕ)] [1] [([0], 4)] (by simp) rfl (by norm_num)
      (fun _ => one_pos)).1
  · exact (given_MT_weights_sum_one demoFam (fun _ => 1) (fun _ => 0)
      [Node.leaf 0 (1/2) (0 : ℕ)] [1] [([0], 4)] (by simp) rfl (by norm_num)
      (fun _ => one_pos)).2

/-- `np.argmax` on a list: index of the first occurrence of the maximum
(`0` on the empty list, where NumPy raises). -/
def argmaxIdx : List ℚ → ℕ
  | [] => 0
  | a :: rest => if a < rest.foldl max a then argmaxIdx rest + 1 else 0

theorem le_foldl_max_init (x : ℚ) (xs : List ℚ) : x ≤ xs.foldl max x := by
  induction xs generalizing x with
  | nil => simp
  | cons a rest ih =>
    rw [List.foldl_cons]
    exact le_trans (le_max_left x a) (ih (max x a))

theorem le_foldl_max_of_mem {a : ℚ} {xs : List ℚ} (x : ℚ) (ha : a ∈ xs) :
    a ≤ xs.foldl max x := by
  induction xs generalizing x with
  | nil => simp at ha
  | cons b rest ih =>
    rw [List.foldl_cons]
    rcases List.mem_cons.1 ha with h1 | h2
    · rw [h1]
      exact le_trans (le_max_right x b) (le_foldl_max_init _ _)
    · exact ih _ h2

theorem foldl_max_cases (x : ℚ) (xs : List ℚ) :
    xs.foldl max x = x ∨ xs.foldl max x ∈ xs := by
  induction xs generalizing x with
  | nil => left; rfl
  | cons a rest ih =>
    rw [List.foldl_cons]
    rcases ih (max x a) with h1 | h2
    · rcases max_choice x a with hx | ha
      · left; rw [h1, hx]
      · right; rw [h1, ha]; exact List.mem_cons_self _ _
    · right; exact List.mem_cons_of_mem _ h2

theorem argmaxIdx_spec (l : List ℚ) (hne : l ≠ []) :
    argmaxIdx l < l.length
    ∧ (∀ j, j < l.length → l.getD j 0 ≤ l.getD (argmaxIdx l) 0)
    ∧ (∀ j, j < argmaxIdx l → l.getD j 0 < l.getD (argmaxIdx l) 0) := by
  induction l with
  | nil => exact absurd rfl hne
  | cons a rest ih =>
    by_cases h : a < rest.foldl max a
    · have hrne : rest ≠ [] := by
        intro h0
        rw [h0] at h
        simp at h
      obtain ⟨ih1, ih2, ih3⟩ := ih hrne
      have hfold : a < rest.getD (argmaxIdx rest) 0 := by
        rcases foldl_max_cases a rest with h1 | h2
        · rw [h1] at h; exact absurd h (lt_irrefl a)
        · obtain ⟨i, hi, hie⟩ := List.mem_iff_getElem.1 h2
          have : rest.getD i 0 = rest.foldl max a := by
            rw [List.getD_eq_getElem _ _ hi, hie]
          exact lt_of_lt_of_le h (this ▸ ih2 i hi)
      rw [argmaxIdx, if_pos h]
      refine ⟨by simpa using ih1, ?_, ?_⟩
      · intro j hj
        cases j with
        | zero => simpa using hfold.le
        | succ j' => simpa using ih2 j' (by simpa using hj)
      · intro j hj
        cases j with
        | zero => simpa using hfold
        | succ j' => simpa using ih3 j' (by omega)
    · rw [argmaxIdx, if_neg h]
      refine ⟨by simp, ?_, by omega⟩
      intro j hj
      cases j with
      | zero => simp
      | succ j' =>
        have hj' : j' < rest.length := by simpa using hj
        have hmem : rest.getD j' 0 ∈ rest := by
          rw [List.getD_eq_getElem _ _ hj']
          exact List.getElem_mem hj'
        simpa using le_trans (le_foldl_max_of_mem a hmem) (not_lt.1 h)

/-- `_make_prediction_leaf_01`: the sub-model's mode under 0-1 loss and the
predictive mass at that mode (`pred_dist[mode]`). -/
def make_prediction_leaf_01 {σ υ : Type} (F : SubFam σ υ) (s : σ) (x : List ℕ) :
    υ × ℚ :=
  (F.mode s x, F.pred s x (F.mode s x))

/-- `_make_prediction_recursion_01`: at an inner node, keep the local
leaf mode iff `(1 - h_g) * mode_prob_local > h_g * mode_prob_child`
(strictly), otherwise propagate the child-subtree mode from
`children[x[k]]`.  (The out-of-range branch, an `IndexError` in the source,
returns the local pair.) -/
def make_prediction_recursion_01 {σ υ : Type} (F : SubFam σ υ) (x : List ℕ) :
    Node σ → υ × ℚ
  | .leaf _ _ s => make_prediction_leaf_01 F s x
  | .inner _ g k s c =>
    if h : x.getD k 0 < c.length then
      if (1 - g) * (make_prediction_leaf_01 F s x).2
          > g * (make_prediction_recursion_01 F x (c.get ⟨x.getD k 0, h⟩)).2 then
        make_prediction_leaf_01 F s x
      else make_prediction_recursion_01 F x (c.get ⟨x.getD k 0, h⟩)
    else make_prediction_leaf_01 F s x
termination_by t => sizeOf t
decreasing_by
  all_goals
    simp_wf
    have h1 := List.sizeOf_lt_of_mem (List.get_mem _ _ h)
    simp only [List.get_eq_getElem, List.getD_eq_getElem?_getD] at h1
    omega

/-- The `loss == "0-1"` branch of `make_prediction`: compute each candidate's
(mode, mode probability) pair, then return the mode of the candidate with the
largest `ensemble_weight * mode_probability` product
(`tmp_mode[np.argmax(self.hn_metatree_prob_vec * tmp_mode_prob_vec)]`). -/
def make_prediction_01 {σ υ : Type} (F : SubFam σ υ) (x : List ℕ)
    (trees : List (Node σ)) (w : List ℚ) : Option υ :=
  let pairs := trees.map (make_prediction_recursion_01 F x)
  let scores := List.zipWith (fun wi pr => wi * pr.2) w pairs
  (pairs.get? (argmaxIdx scores)).map Prod.fst

theorem scores_getD {σ υ : Type} [Inhabited σ] (F : SubFam σ υ) (x : List ℕ)
    (w : List ℚ) (trees : List (Node σ)) (hlen : w.length = trees.length) :
    ∀ j, j < trees.length →
      (List.zipWith (fun wi pr => wi * pr.2) w
          (trees.map (make_prediction_recursion_01 F x))).getD j 0
        = w.getD j 0 * (make_prediction_recursion_01 F x (trees.getD j default)).2 := by
  induction w generalizing trees with
  | nil =>
    intro j hj
    simp only [List.length_nil] at hlen
    omega
  | cons a w' ih =>
    intro j hj
    cases trees with
    | nil => simp at hj
    | cons t ts =>
      cases j with
      | zero => simp
      | succ j' =>
        simp only [List.map_cons, List.zipWith_cons_cons, List.getD_cons_succ]
        exact ih ts (by simpa using hlen) j' (by simpa using hj)

/-- C7: 0-1-loss prediction returns the mode of the candidate whose product
`ensemble_weight * mode_probability` is maximal, ties resolving to the first
candidate in list order; and per tree, an inner node keeps the local mode
only when `(1 - g) * local_mode_prob` strictly exceeds
`g * child_mode_prob`. -/
theorem make_prediction_01_spec {σ υ : Type} [Inhabited σ] (F : SubFam σ υ)
    (x : List ℕ) (trees : List (Node σ)) (w : List ℚ)
    (hne : trees ≠ []) (hlen : w.length = trees.length) :
    (∃ i, i < trees.length
      ∧ make_prediction_01 F x trees w
          = some (make_prediction_recursion_01 F x (trees.getD i default)).1
      ∧ (∀ j, j < trees.length →
          w.getD j 0 * (make_prediction_recursion_01 F x (trees.getD j default)).2
            ≤ w.getD i 0 * (make_prediction_recursion_01 F x (trees.getD i default)).2)
      ∧ (∀ j, j < i →
          w.getD j 0 * (make_prediction_recursion_01 F x (trees.getD j default)).2
            < w.getD i 0 * (make_prediction_recursion_01 F x (trees.getD i default)).2))
    ∧ (∀ (d : ℕ) (g : ℚ) (k : ℕ) (s : σ) (c : List (Node σ))
        (h : x.getD k 0 < c.length),
        make_prediction_recursion_01 F x (Node.inner d g k s c)
          = if (1 - g) * (make_prediction_leaf_01 F s x).2
               > g * (make_prediction_recursion_01 F x (c.get ⟨x.getD k 0, h⟩)).2
            then make_prediction_leaf_01 F s x
            else make_prediction_recursion_01 F x (c.get ⟨x.getD k 0, h⟩)) := by
  constructor
  · have hslen : (List.zipWith (fun wi pr => wi * pr.2) w
        (trees.map (make_prediction_recursion_01 F x))).length = trees.length := by
      rw [List.length_zipWith, List.length_map, hlen, min_self]
    have hsne : List.zipWith (fun wi pr => wi * pr.2) w
        (trees.map (make_prediction_recursion_01 F x)) ≠ [] := by
      intro h0
      rw [h0] at hslen
      simp only [List.length_nil] at hslen
      exact hne (List.length_eq_zero.1 hslen.symm)
    obtain ⟨ha1, ha2, ha3⟩ := argmaxIdx_spec _ hsne
    have hscore : ∀ j, j < trees.length →
        (List.zipWith (fun wi pr => wi * pr.2) w
            (trees.map (make_prediction_recursion_01 F x))).getD j 0
          = w.getD j 0 * (make_prediction_recursion_01 F x (trees.getD j default)).2 :=
      scores_getD F x w trees hlen
    have hai : argmaxIdx (List.zipWith (fun wi pr => wi * pr.2) w
        (trees.map (make_prediction_recursion_01 F x))) < trees.length := by
      rw [← hslen]; exact ha1
    refine ⟨_, hai, ?_, ?_, ?_⟩
    · rw [make_prediction_01]
      have haip : argmaxIdx (List.zipWith (fun wi pr => wi * pr.2) w
          (trees.map (make_prediction_recursion_01 F x)))
            < (trees.map (make_prediction_recursion_01 F x)).length := by
        rw [List.length_map]; exact hai
      rw [List.get?_eq_get haip]
      simp only [Option.map_some']
      congr 1
      rw [List.get_eq_getElem, List.getElem_map, List.getD_eq_getElem _ _ hai]
    · intro j hj
      rw [← hscore j hj, ← hscore _ hai]
      exact ha2 j (by rw [hslen]; exact hj)
    · intro j hj
      have hjt : j < trees.length := lt_trans hj hai
      rw [← hscore j hjt, ← hscore _ hai]
      exact ha3 j hj
  · intro d g k s c h
    rw [make_prediction_recursion_01]
    rw [dif_pos h]

theorem make_prediction_01_spec_witness :
    ([Node.leaf 0 (1/2) (2 : ℕ), Node.leaf 0 (1/2) (5 : ℕ)] ≠ ([] : List (Node ℕ)))
    ∧ ((∃ i, i < [Node.leaf 0 (1/2) (2 : ℕ), Node.leaf 0 (1/2) (5 : ℕ)].length
      ∧ make_prediction_01 demoFam [0] [Node.leaf 0 (1/2) 2, Node.leaf 0 (1/2) 5] [1/2, 1/2]
          = some (make_prediction_recursion_01 demoFam [0]
              ([Node.leaf 0 (1/2) 2, Node.leaf 0 (1/2) 5].getD i default)).1
      ∧ (∀ j, j < [Node.leaf 0 (1/2) (2 : ℕ), Node.leaf 0 (1/2) (5 : ℕ)].length →
          [(1 : ℚ)/2, 1/2].getD j 0 * (make_prediction_recursion_01 demoFam [0]
              ([Node.leaf 0 (1/2) 2, Node.leaf 0 (1/2) 5].getD j default)).2
            ≤ [(1 : ℚ)/2, 1/2].getD i 0 * (make_prediction_recursion_01 demoFam [0]
              ([Node.leaf 0 (1/2) 2, Node.leaf 0 (1/2) 5].getD i default)).2)
      ∧ (∀ j, j < i →
          [(1 : ℚ)/2, 1/2].getD j 0 * (make_prediction_recursion_01 demoFam [0]
              ([Node.leaf 0 (1/2) 2, Node.leaf 0 (1/2) 5].getD j default)).2
            < [(1 : ℚ)/2, 1/2].getD i 0 * (make_prediction_recursion_01 demoFam [0]
              ([Node.leaf 0 (1/2) 2, Node.leaf 0 (1/2) 5].getD i default)).2))
    ∧ (∀ (d : ℕ) (g : ℚ) (k : ℕ) (s : ℕ) (c : List (Node ℕ))
        (h : [0].getD k 0 < c.length),
        make_prediction_recursion_01 demoFam [0] (Node.inner d g k s c)
          = if (1 - g) * (make_prediction_leaf_01 demoFam s [0]).2
               > g * (make_prediction_recursion_01 demoFam [0] (c.get ⟨[0].getD k 0, h⟩)).2
            then make_prediction_leaf_01 demoFam s [0]
            else make_prediction_recursion_01 demoFam [0] (c.get ⟨[0].getD k 0, h⟩))) := by
  refine ⟨by simp, ?_⟩
  exact make_prediction_01_spec demoFam [0]
    [Node.leaf 0 (1/2) 2, Node.leaf 0 (1/2) 5] [1/2, 1/2] (by simp) rfl

/-- Error kinds raised by the entry points: `DataFormatError` and
`ParameterFormatError` of the source. -/
inductive MtError : Type where
  | dataFormat
  | paramFormat
deriving DecidableEq

/-- The posterior-side ensemble state of `LearnModel`: the candidate list
`hn_metatree_list` and the parallel probability vector
`hn_metatree_prob_vec`. -/
structure LearnState (σ : Type) where
  trees : List (Node σ)
  probs : List ℚ

/-- `_given_MT` as called by `update_posterior`: raises `ParameterFormatError`
when the stored candidate list is empty, otherwise reweights the stored list
in place over the observation batch. -/
def given_MT_update {σ υ : Type} (F : SubFam σ υ) (expF logF : ℚ → ℚ)
    (st : LearnState σ) (obs : List (List ℕ × υ)) : Except MtError (LearnState σ) :=
  if st.trees.isEmpty then .error .paramFormat
  else
    let r := given_MT F expF logF st.trees st.probs obs
    .ok ⟨r.1, r.2⟩

/-- `_MTRF`: raises `ParameterFormatError` unless `c_num_children == 2`;
otherwise builds one candidate tree per random-forest estimator (the
random-forest fit and `_copy_tree_from_sklearn_tree` are the external
topology proposer, abstracted as the function argument `proposer`), assigns
uniform prior mass `1/n`, merges structural duplicates, and reweights over
the batch with the same log-domain block as `_given_MT`. -/
def MTRF {σ υ : Type} (F : SubFam σ υ) (expF logF : ℚ → ℚ) (cnum : ℕ)
    (proposer : List (List ℕ) → List υ → List (Node σ))
    (x : List (List ℕ)) (y : List υ) : Except MtError (List (Node σ) × List ℚ) :=
  if cnum ≠ 2 then .error .paramFormat
  else
    let ts := proposer x y
    let merged := marge_metatrees (ts.zip (ts.map (fun _ => ((ts.length : ℚ))⁻¹)))
    .ok (given_MT F expF logF (merged.map Prod.fst) (merged.map Prod.snd) (x.zip y))

/-- Modelled from the spec: `_check.nonneg_int_vecs` (the `bayesml._check`
module is not part of this subsystem's source) rejects, with a
`DataFormatError`, any batch containing a negative entry — "Violations
(wrong length, out-of-range entries, negative indices) are rejected before
any tree mutation occurs". -/
def nonneg_int_vecs (x : List (List ℤ)) : Bool :=
  x.all (fun row => row.all (fun v => decide (0 ≤ v)))

/-- `update_posterior(x, y, alg_type)`: validate the batch (entries
nonnegative, rows of length `c_k`, entries below `c_num_children`, `y` shape
matching `x`), then dispatch on `alg_type`; an unknown `alg_type` falls
through the `if`/`elif` chain and the state is returned unchanged. -/
def update_posterior {σ υ : Type} (F : SubFam σ υ) (expF logF : ℚ → ℚ)
    (ck cnum : ℕ) (proposer : List (List ℕ) → List υ → List (Node σ))
    (st : LearnState σ) (x : List (List ℤ)) (y : List υ) (alg : String) :
    Except MtError (LearnState σ) :=
  if ¬ nonneg_int_vecs x then .error .dataFormat
  else if ¬ x.all (fun row => row.length == ck) then .error .dataFormat
  else if ¬ x.all (fun row => row.all (fun v => decide (v < (cnum : ℤ)))) then
    .error .dataFormat
  else if y.length ≠ x.length then .error .dataFormat
  else
    let xn := x.map (fun row => row.map Int.toNat)
    if alg = "MTRF" then
      match MTRF F expF logF cnum proposer xn y with
      | .error e => .error e
      | .ok r => .ok ⟨r.1, r.2⟩
    else if alg = "given_MT" then given_MT_update F expF logF st (xn.zip y)
    else .ok st

/-- `pred_and_update(x, y)` with the default loss `"0-1"`: validate `x`
(also done by `calc_pred_dist`), compute the prediction from the current
ensemble, then absorb `(x, y)` via the given-topology update, and return the
prediction together with the updated state. -/
def pred_and_update {σ υ : Type} (F : SubFam σ υ) (expF logF : ℚ → ℚ)
    (ck cnum : ℕ) (st : LearnState σ) (x : List ℤ) (y : υ) :
    Except MtError (Option υ × LearnState σ) :=
  if ¬ x.all (fun v => decide (0 ≤ v)) then .error .dataFormat
  else if x.length ≠ ck then .error .dataFormat
  else if ¬ x.all (fun v => decide (v < (cnum : ℤ))) then .error .dataFormat
  else
    let xn := x.map Int.toNat
    let prediction := make_prediction_01 F xn st.trees st.probs
    match given_MT_update F expF logF st [(xn, y)] with
    | .error e => .error e
    | .ok st2 => .ok (prediction, st2)

/-- C9: a malformed batch — a row of the wrong length, an entry at or above
`c_num_children`, a negative entry, or a `y` whose length disagrees with `x`
— makes `update_posterior` fail with a data-format error before any tree or
weight is touched (the returned state exists only in the `ok` branch). -/
theorem update_posterior_rejects_malformed {σ υ : Type} (F : SubFam σ υ)
    (expF logF : ℚ → ℚ) (ck cnum : ℕ)
    (proposer : List (List ℕ) → List υ → List (Node σ))
    (st : LearnState σ) (x : List (List ℤ)) (y : List υ) (alg : String)
    (hbad : (∃ row ∈ x, row.length ≠ ck)
      ∨ (∃ row ∈ x, ∃ v ∈ row, (cnum : ℤ) ≤ v)
      ∨ (∃ row ∈ x, ∃ v ∈ row, v < 0)
      ∨ y.length ≠ x.length) :
    update_posterior F expF logF ck cnum proposer st x y alg
      = .error .dataFormat := by
  rw [update_posterior]
  by_cases h1 : nonneg_int_vecs x = true
  case neg => rw [if_pos (by simpa using h1)]
  rw [if_neg (by simpa using h1)]
  by_cases h2 : x.all (fun row => row.length == ck) = true
  case neg => rw [if_pos (by simpa using h2)]
  rw [if_neg (by simpa using h2)]
  by_cases h3 : x.all (fun row => row.all (fun v => decide (v < (cnum : ℤ)))) = true
  case neg => rw [if_pos (by simpa using h3)]
  rw [if_neg (by simpa using h3)]
  by_cases h4 : y.length = x.length
  case neg => rw [if_pos h4]
  exfalso
  rw [nonneg_int_vecs] at h1
  simp only [List.all_eq_true, beq_iff_eq, decide_eq_true_eq] at h1 h2 h3
  rcases hbad with ⟨row, hrow, hl⟩ | ⟨row, hrow, v, hv, hge⟩
    | ⟨row, hrow, v, hv, hneg⟩ | hy
  · exact hl (h2 row hrow)
  · exact absurd (h3 row hrow v hv) (not_lt.2 hge)
  · exact absurd (h1 row hrow v hv) (not_le.2 hneg)
  · exact hy h4

theorem update_posterior_rejects_malformed_witness :
    ((∃ row ∈ [[(5 : ℤ)]], row.length ≠ 1)
      ∨ (∃ row ∈ [[(5 : ℤ)]], ∃ v ∈ row, (2 : ℤ) ≤ v)
      ∨ (∃ row ∈ [[(5 : ℤ)]], ∃ v ∈ row, v < 0)
      ∨ [(3 : ℕ)].length ≠ [[(5 : ℤ)]].length)
    ∧ update_posterior demoFam (fun _ => 1) (fun _ => 0) 1 2 (fun _ _ => [])
        ⟨[], []⟩ [[(5 : ℤ)]] [(3 : ℕ)] "MTRF" = .error .dataFormat :=
  ⟨by decide,
    update_posterior_rejects_malformed demoFam (fun _ => 1) (fun _ => 0) 1 2
      (fun _ _ => []) ⟨[], []⟩ [[(5 : ℤ)]] [(3 : ℕ)] "MTRF" (by decide)⟩

/-- C10: on a batch passing validation, any `alg_type` other than `"MTRF"`
and `"given_MT"` falls through the dispatch: no error is raised and the
candidate list, probability vector and every node are returned unchanged. -/
theorem update_posterior_ignores_unknown_alg {σ υ : Type} (F : SubFam σ υ)
    (expF logF : ℚ → ℚ) (ck cnum : ℕ)
    (proposer : List (List ℕ) → List υ → List (Node σ))
    (st : LearnState σ) (x : List (List ℤ)) (y : List υ) (alg : String)
    (hx0 : nonneg_int_vecs x = true)
    (hx1 : x.all (fun row => row.length == ck) = true)
    (hx2 : x.all (fun row => row.all (fun v => decide (v < (cnum : ℤ)))) = true)
    (hy : y.length = x.length)
    (halg1 : alg ≠ "MTRF") (halg2 : alg ≠ "given_MT") :
    update_posterior F expF logF ck cnum proposer st x y alg = .ok st := by
  rw [update_posterior]
  rw [if_neg (by simpa using hx0), if_neg (by simpa using hx1),
    if_neg (by simpa using hx2), if_neg (by simp [hy]), if_neg halg1, if_neg halg2]

theorem update_posterior_ignores_unknown_alg_witness :
    ("bogus" ≠ "MTRF") ∧ ("bogus" ≠ "given_MT")
    ∧ update_posterior demoFam (fun _ => 1) (fun _ => 0) 1 2 (fun _ _ => [])
        ⟨[Node.leaf 0 (1/2) 0], [1]⟩ [[(0 : ℤ)]] [(7 : ℕ)] "bogus"
      = .ok ⟨[Node.leaf 0 (1/2) 0], [1]⟩ :=
  ⟨by decide, by decide,
    update_posterior_ignores_unknown_alg demoFam (fun _ => 1) (fun _ => 0) 1 2
      (fun _ _ => []) ⟨[Node.leaf 0 (1/2) 0], [1]⟩ [[(0 : ℤ)]] [(7 : ℕ)] "bogus"
      (by decide) (by decide) (by decide) (by decide) (by decide) (by decide)⟩

/-- C8: `pred_and_update` returns exactly the prediction computed from the
ensemble state before the observation is absorbed, alongside the state
produced by the given-topology update: no information from `y` leaks into the
returned prediction. -/
theorem pred_and_update_uses_pre_update_state {σ υ : Type} (F : SubFam σ υ)
    (expF logF : ℚ → ℚ) (ck cnum : ℕ) (st : LearnState σ) (x : List ℤ) (y : υ)
    (h0 : x.all (fun v => decide (0 ≤ v)) = true)
    (h1 : x.length = ck)
    (h2 : x.all (fun v => decide (v < (cnum : ℤ))) = true)
    (hne : st.trees ≠ []) :
    pred_and_update F expF logF ck cnum st x y
      = .ok (make_prediction_01 F (x.map Int.toNat) st.trees st.probs,
          ⟨(given_MT F expF logF st.trees st.probs [(x.map Int.toNat, y)]).1,
            (given_MT F expF logF st.trees st.probs [(x.map Int.toNat, y)]).2⟩) := by
  have hupd : given_MT_update F expF logF st [(x.map Int.toNat, y)]
      = .ok ⟨(given_MT F expF logF st.trees st.probs [(x.map Int.toNat, y)]).1,
          (given_MT F expF logF st.trees st.probs [(x.map Int.toNat, y)]).2⟩ := by
    rw [given_MT_update, if_neg (by simpa [List.isEmpty_iff] using hne)]
  simp only [pred_and_update]
  rw [if_neg (by simpa using h0), if_neg (by simp [h1]),
    if_neg (by simpa using h2), hupd]

theorem pred_and_update_uses_pre_update_state_witness :
    (([Node.leaf 0 (1/2) (0 : ℕ)] : List (Node ℕ)) ≠ [])
    ∧ pred_and_update demoFam (fun _ => 1) (fun _ => 0) 1 2
        ⟨[Node.leaf 0 (1/2) 0], [1]⟩ [0] 3
      = .ok (make_prediction_01 demoFam ([(0 : ℤ)].map Int.toNat)
            [Node.leaf 0 (1/2) 0] [1],
          ⟨(given_MT demoFam (fun _ => 1) (fun _ => 0) [Node.leaf 0 (1/2) 0] [1]
              [([(0 : ℤ)].map Int.toNat, 3)]).1,
            (given_MT demoFam (fun _ => 1) (fun _ => 0) [Node.leaf 0 (1/2) 0] [1]
              [([(0 : ℤ)].map Int.toNat, 3)]).2⟩) :=
  ⟨by simp,
    pred_and_update_uses_pre_update_state demoFam (fun _ => 1) (fun _ => 0) 1 2
      ⟨[Node.leaf 0 (1/2) 0], [1]⟩ [0] 3 (by decide) (by decide) (by decide)
      (by simp)⟩

end Metatree
